import Mathlib

/-!
Verification of the playlist/video reconciliation engine of the YouTubeArchive
project, shallowly embedded from `src/youtubeArchive/Playlist.ts` (the current
revision, the one with label annotations) and the `fetch` command of
`src/index.ts`.

Modelling conventions:

* Strings are modelled as `List Char` (`Str`): every text operation the code
  performs (trim, split, prefix tests, slicing) becomes a structural list
  operation, and JavaScript's `String.prototype` behaviour is mirrored by the
  small executable functions below.
* A JavaScript `Map` is modelled as an association list in insertion order
  (`LabelMap`); `get`/`set`/`delete` mirror `Map` semantics (`set` updates an
  existing key in place, otherwise appends; keys are unique by construction).
* The key type of a playlist's `labels` map is `Option Nat`: the code path in
  `fetch` that executes `playlist.labels.set(index, "New")` passes the result
  of `addVideoToPlaylist`, a method with no return value, so at runtime the
  key is `undefined`.  `none` models that `undefined` key; every numeric
  comparison (`labelIndex >= index`, `labelIndex > index`) against `undefined`
  is false in JavaScript, which the shift steps reproduce.
* `VideoInfo` carries many metadata fields (url, channel, channelId, file,
  captions, publishedAt, thumbnail, description).  None of the operations the
  claims are about read or branch on them — they ride along unchanged — so the
  model keeps the two fields the engine consumes: `id` (identity, catalog key,
  persistence) and `label` (the persisted display text).  Videos inside
  playlists are always the registry's canonical object for their id, so
  JavaScript object identity coincides with structural equality here.
* Asynchronous thumbnail downloads and file-system calls are outside the
  model; `save`/`load` are modelled at the line level (the source joins the
  emitted fragments with `"\n"` and the loader immediately splits on `"\n"`,
  so a file is embedded as its list of physical lines).
-/

namespace YTA

abbrev Str := List Char

/-- JavaScript whitespace as far as `String.prototype.trim` is exercised by
the playlist files: space, tab, newline, carriage return. -/
def isWs (c : Char) : Bool := c = ' ' || c = '\t' || c = '\n' || c = '\r'

/-- Leading-whitespace trim (`trimStart`). -/
def trimL (s : Str) : Str := s.dropWhile isWs

/-- Trailing-whitespace trim (`trimEnd`). -/
def trimR (s : Str) : Str := (s.reverse.dropWhile isWs).reverse

/-- `String.prototype.trim`. -/
def jsTrim (s : Str) : Str := trimR (trimL s)

/-- `String.prototype.split(sep)` for a one-character separator: keeps empty
pieces and always returns at least one piece. -/
def jsSplit (sep : Char) : Str → List Str
  | [] => [[]]
  | c :: rest =>
    if c = sep then [] :: jsSplit sep rest
    else
      match jsSplit sep rest with
      | p :: ps => (c :: p) :: ps
      | [] => [[c]]

/-- `Array.prototype.join(sep)` for a one-character separator. -/
def jsJoin (sep : Char) : List Str → Str
  | [] => []
  | [p] => p
  | p :: ps => p ++ sep :: jsJoin sep ps

/-- Index of the first element satisfying a predicate
(`findIndex` / `indexOf` / `String.prototype.match` with a character class). -/
def idxWhere {α : Type} (pr : α → Bool) : List α → Option Nat
  | [] => none
  | x :: rest => if pr x then some 0 else (idxWhere pr rest).map (fun n => n + 1)

/-- `Array.prototype.at` for a non-negative index. -/
def nth {α : Type} : List α → Nat → Option α
  | [], _ => none
  | x :: _, 0 => some x
  | _ :: rest, n + 1 => nth rest n

/-- The slice of `VideoInfo` the engine operates on (see the module comment). -/
structure VideoInfo where
  id : Str
  label : Str
deriving DecidableEq

/-- Key of a `labels` entry: `some n` is a numeric position, `none` is the
`undefined` key produced by `labels.set(addVideoToPlaylist(...), "New")`. -/
abbrev LKey := Option Nat

/-- A JavaScript `Map<number, string>` value: association list in insertion
order, unique keys. -/
abbrev LabelMap := List (LKey × Str)

/-- `Map.prototype.get`. -/
def mapGet : LabelMap → LKey → Option Str
  | [], _ => none
  | e :: rest, k => if e.1 = k then some e.2 else mapGet rest k

/-- `Map.prototype.set`: update in place if the key exists, else append. -/
def mapSet : LabelMap → LKey → Str → LabelMap
  | [], k, v => [(k, v)]
  | e :: rest, k, v => if e.1 = k then (k, v) :: rest else e :: mapSet rest k v

/-- `Map.prototype.delete` (keys are unique, so deleting the first match
matches `Map` semantics). -/
def mapDelete : LabelMap → LKey → LabelMap
  | [], _ => []
  | e :: rest, k => if e.1 = k then rest else e :: mapDelete rest k

/-- One iteration of the label-shift loop in
`PlaylistRegistry.insertVideoToPlaylist` (`Playlist.ts:65-75`): the entry `e`
of the snapshot is moved from `labelIndex` to `labelIndex + 1` when
`labelIndex >= index`; on collision the moved text is placed before the
existing text (`label + "\n" + existing`).  An entry with the `undefined` key
fails the `>=` comparison and is left alone. -/
def shiftUpStep (index : Nat) (m : LabelMap) (e : LKey × Str) : LabelMap :=
  match e.1 with
  | none => m
  | some li =>
    if index ≤ li then
      let m1 := mapDelete m (some li)
      match mapGet m1 (some (li + 1)) with
      | some existing => mapSet m1 (some (li + 1)) (e.2 ++ '\n' :: existing)
      | none => mapSet m1 (some (li + 1)) e.2
    else m

/-- One iteration of the label-shift loop in
`PlaylistRegistry.removeVideoFromPlaylist` (`Playlist.ts:88-98`): the entry is
moved from `labelIndex` to `labelIndex - 1` when `labelIndex > index`; on
collision the moved text is placed after the existing text
(`existing + "\n" + label`). -/
def shiftDownStep (index : Nat) (m : LabelMap) (e : LKey × Str) : LabelMap :=
  match e.1 with
  | none => m
  | some li =>
    if index < li then
      let m1 := mapDelete m (some li)
      match mapGet m1 (some (li - 1)) with
      | some existing => mapSet m1 (some (li - 1)) (existing ++ '\n' :: e.2)
      | none => mapSet m1 (some (li - 1)) e.2
    else m

/-- The `Playlist` data object (`Playlist.ts:10-26`); `getUrl` is not needed
by the claims. -/
structure Playlist where
  id : Str
  sourceId : Option Str
  label : Str
  videos : List VideoInfo
  labels : LabelMap
deriving DecidableEq

/-- `Array.prototype.splice(i, 0, v)`: insert at `i`, clamped to the length
(an index past the end appends, exactly as in JavaScript). -/
def spliceInsert (l : List VideoInfo) (i : Nat) (v : VideoInfo) : List VideoInfo :=
  l.take i ++ v :: l.drop i

namespace Playlist

/-- The effect of `PlaylistRegistry.insertVideoToPlaylist` on the playlist
object itself (`Playlist.ts:60-75`): splice the video in, then walk the
reversed snapshot of the labels map with `shiftUpStep`.  The membership-cache
update of the method is handled by the callers below. -/
def insertVideo (p : Playlist) (v : VideoInfo) (i : Nat) : Playlist :=
  { p with
    videos := spliceInsert p.videos i v
    labels := p.labels.reverse.foldl (shiftUpStep i) p.labels }

/-- The effect of `PlaylistRegistry.removeVideoFromPlaylist` on the playlist
object (`Playlist.ts:80-98`): `indexOf`, early `false` when absent, else
splice out and walk the (unreversed) snapshot with `shiftDownStep`. -/
def removeVideo (p : Playlist) (v : VideoInfo) : Bool × Playlist :=
  match idxWhere (fun w => w = v) p.videos with
  | none => (false, p)
  | some i =>
    (true,
      { p with
        videos := p.videos.eraseIdx i
        labels := p.labels.foldl (shiftDownStep i) p.labels })

end Playlist

/-- One entry of the lazily built membership cache
(`PlaylistRegistry._videoCache`): video id, then the set of playlist ids that
contain it (as a duplicate-free list in insertion order). -/
abbrev Cache := List (Str × List Str)

/-- `Map.prototype.get` on the cache. -/
def cacheGet : Cache → Str → Option (List Str)
  | [], _ => none
  | e :: rest, vid => if e.1 = vid then some e.2 else cacheGet rest vid

/-- `ensureKey(cache, vid, () => new Set()).add(pid)`. -/
def cacheAdd : Cache → Str → Str → Cache
  | [], vid, pid => [(vid, [pid])]
  | e :: rest, vid, pid =>
    if e.1 = vid then
      (if pid ∈ e.2 then e else (e.1, e.2 ++ [pid])) :: rest
    else e :: cacheAdd rest vid pid

/-- `cache.get(vid)?.delete(pid)` (deleting from a set with unique elements). -/
def cacheDelete : Cache → Str → Str → Cache
  | [], _, _ => []
  | e :: rest, vid, pid =>
    if e.1 = vid then (e.1, e.2.filter (fun q => !(q = pid))) :: rest
    else e :: cacheDelete rest vid pid

/-- The full scan in `PlaylistRegistry._getVideoCache` (`Playlist.ts:30-41`). -/
def buildCache (ps : List Playlist) : Cache :=
  ps.foldl (fun c p => p.videos.foldl (fun c v => cacheAdd c v.id p.id) c) []

/-- `this._getVideoCache()`: reuse the cache if built, else build it now from
the given playlists. -/
def cacheForce (ps : List Playlist) (co : Option Cache) : Cache :=
  match co with
  | some c => c
  | none => buildCache ps

/-- `PlaylistRegistry` state: the playlists and the lazily built membership
cache.  `path`, `originalFiles` and `orphanVideos` are file-system bookkeeping
that no claim depends on. -/
structure PlaylistRegistry where
  playlists : List Playlist
  cache : Option Cache
deriving DecidableEq

/-- Find a playlist by its id (JavaScript holds an object reference; ids are
unique, so a first-match lookup is the faithful translation). -/
def findPl : List Playlist → Str → Option Playlist
  | [], _ => none
  | p :: rest, pid => if p.id = pid then some p else findPl rest pid

/-- Mutating a playlist object in place: replace the playlist with this id. -/
def replacePl (ps : List Playlist) (pid : Str) (p2 : Playlist) : List Playlist :=
  ps.map (fun q => if q.id = pid then p2 else q)

/-- Remove a playlist object from the `playlists` array
(`this.playlists.splice(index, 1)`). -/
def erasePl : List Playlist → Str → List Playlist
  | [], _ => []
  | p :: rest, pid => if p.id = pid then rest else p :: erasePl rest pid

namespace PlaylistRegistry

/-- `PlaylistRegistry.isVideoOrphan` (`Playlist.ts:50-54`). -/
def isVideoOrphan (reg : PlaylistRegistry) (v : VideoInfo) : Bool :=
  match cacheGet (cacheForce reg.playlists reg.cache) v.id with
  | none => true
  | some s => s.isEmpty

/-- `PlaylistRegistry.removeVideoFromPlaylist` (`Playlist.ts:80-102`): the
splice and label shifts happen first, then `_getVideoCache()` is forced —
that is, built from the already mutated playlists when still unbuilt — and
the playlist id is deleted from the video's entry. -/
def removeVideoFromPlaylist (reg : PlaylistRegistry) (v : VideoInfo) (pid : Str) :
    Bool × PlaylistRegistry :=
  match findPl reg.playlists pid with
  | none => (false, reg)
  | some p =>
    match Playlist.removeVideo p v with
    | (false, _) => (false, reg)
    | (true, p2) =>
      let ps2 := replacePl reg.playlists pid p2
      (true, ⟨ps2, some (cacheDelete (cacheForce ps2 reg.cache) v.id pid)⟩)

end PlaylistRegistry

/-- The `for (const video of playlist.videos)` loop of
`PlaylistRegistry.deletePlaylist` (`Playlist.ts:107-109`).  The loop iterates
the live array with an index-based iterator while `removeVideoFromPlaylist`
splices elements out of it, so each pass reads the element at the iterator's
position in the *current* array and the iterator stops as soon as its position
reaches the current length. -/
def deleteLoop (reg : PlaylistRegistry) (pid : Str) (idx : Nat) : PlaylistRegistry :=
  match hfp : findPl reg.playlists pid with
  | none => reg
  | some p =>
    if h : idx < p.videos.length then
      deleteLoop (PlaylistRegistry.removeVideoFromPlaylist reg (p.videos.get ⟨idx, h⟩) pid).2
        pid (idx + 1)
    else reg
termination_by
  (match findPl reg.playlists pid with
   | none => 0
   | some p => p.videos.length) - idx
decreasing_by
  have hid : ∀ (ps : List Playlist) (q : Str) (pl : Playlist),
      findPl ps q = some pl → pl.id = q := by
    intro ps
    induction ps with
    | nil => intro q pl hq; cases hq
    | cons hd tl ih =>
      intro q pl hq
      by_cases hh : hd.id = q
      · simp only [findPl, if_pos hh] at hq
        cases hq
        exact hh
      · simp only [findPl, if_neg hh] at hq
        exact ih q pl hq
  have hrepl : ∀ (ps : List Playlist) (q : Str) (p2 : Playlist), p2.id = q →
      ∀ pl, findPl ps q = some pl → findPl (replacePl ps q p2) q = some p2 := by
    intro ps q p2 h2
    induction ps with
    | nil => intro pl hq; cases hq
    | cons hd tl ih =>
      intro pl hq
      by_cases hh : hd.id = q
      · simp only [replacePl, List.map_cons, if_pos hh, findPl, if_pos h2]
      · simp only [findPl, if_neg hh] at hq
        simp only [replacePl, List.map_cons, if_neg hh, findPl, if_neg hh]
        exact ih pl hq
  have hidx : ∀ (l : List VideoInfo) (v : VideoInfo), v ∈ l →
      ∃ j, idxWhere (fun w => w = v) l = some j ∧ j < l.length := by
    intro l v
    induction l with
    | nil => intro hv; cases hv
    | cons x rest ih =>
      intro hv
      by_cases hx : x = v
      · exact ⟨0, by simp [idxWhere, hx], by simp⟩
      · have hv2 : v ∈ rest := by
          cases hv with
          | head => exact absurd rfl hx
          | tail _ hm => exact hm
        obtain ⟨j, hj, hjl⟩ := ih hv2
        refine ⟨j + 1, ?_, by simpa using Nat.succ_lt_succ hjl⟩
        simp [idxWhere, hx, hj]
  have herase : ∀ (l : List VideoInfo) (j : Nat), j < l.length →
      (l.eraseIdx j).length + 1 = l.length := by
    intro l
    induction l with
    | nil => intro j hj; simp at hj
    | cons x rest ih =>
      intro j hj
      cases j with
      | zero => simp [List.eraseIdx]
      | succ j =>
        have := ih j (by simpa using Nat.lt_of_succ_lt_succ hj)
        simp only [List.eraseIdx, List.length_cons]
        omega
  obtain ⟨j, hj, hjl⟩ := hidx p.videos (p.videos.get ⟨idx, h⟩) (p.videos.get_mem idx h)
  have hrm : Playlist.removeVideo p (p.videos.get ⟨idx, h⟩) =
      (true, { p with videos := p.videos.eraseIdx j,
                      labels := p.labels.foldl (shiftDownStep j) p.labels }) := by
    unfold Playlist.removeVideo
    rw [hj]
  have hcomp : (PlaylistRegistry.removeVideoFromPlaylist reg (p.videos.get ⟨idx, h⟩) pid).2 =
      ⟨replacePl reg.playlists pid
          { p with videos := p.videos.eraseIdx j,
                   labels := p.labels.foldl (shiftDownStep j) p.labels },
        some (cacheDelete
          (cacheForce (replacePl reg.playlists pid
            { p with videos := p.videos.eraseIdx j,
                     labels := p.labels.foldl (shiftDownStep j) p.labels }) reg.cache)
          (p.videos.get ⟨idx, h⟩).id pid)⟩ := by
    unfold PlaylistRegistry.removeVideoFromPlaylist
    simp only [hfp, hrm]
  have hfind2 : findPl ((PlaylistRegistry.removeVideoFromPlaylist reg
      (p.videos.get ⟨idx, h⟩) pid).2).playlists pid =
      some { p with videos := p.videos.eraseIdx j,
                    labels := p.labels.foldl (shiftDownStep j) p.labels } := by
    rw [hcomp]
    exact hrepl reg.playlists pid _ (hid reg.playlists pid p hfp) p hfp
  simp only [hfind2, hfp]
  have := herase p.videos j hjl
  simp only [List.length_cons] at this ⊢
  omega

/-- `PlaylistRegistry.deletePlaylist` (`Playlist.ts:104-111`): remove every
contained video via `removeVideoFromPlaylist` (through the flawed live-array
iteration above), then splice the playlist object out of `playlists`.  The
splice index is computed before the loop, but the loop never reorders
`playlists`, so erasing the first playlist with this id is equivalent. -/
def PlaylistRegistry.deletePlaylist (reg : PlaylistRegistry) (pid : Str) : PlaylistRegistry :=
  match findPl reg.playlists pid with
  | none => reg
  | some _ =>
    let reg2 := deleteLoop reg pid 0
    { reg2 with playlists := erasePl reg2.playlists pid }

/-! ### The fetch command (`index.ts:785-874`, current revision)

`fetch` processes one playlist's remote snippet list sequentially.  The state
a merge run touches is the video catalog (`videoRegistry.videos`), the
playlist object, and the registry's membership cache.  The registry may hold
further playlists; they only matter for building the membership cache, which
the fetch paths write to but never read, so the model forces the cache from
the one affected playlist. -/

/-- The data of one remote playlist item that the merge loop consumes:
`snippet.resourceId.videoId`, `snippet.title`, and
`contentDetails.videoPublishedAt` (`none` marks the private videos the loop
skips). -/
structure Snippet where
  videoId : Str
  title : Str
  publishedAt : Option Str
deriving DecidableEq

/-- State touched by one playlist's fetch-merge. -/
structure FetchState where
  catalog : List VideoInfo
  playlist : Playlist
  cache : Option Cache
deriving DecidableEq

/-- `videoRegistry.videos.get(id)`: the catalog keyed by video id. -/
def catalogGet : List VideoInfo → Str → Option VideoInfo
  | [], _ => none
  | v :: rest, vid => if v.id = vid then some v else catalogGet rest vid

/-- The `"New"` band label. -/
def newLabel : Str := ['N', 'e', 'w']

/-- `playlistRegistry.insertVideoToPlaylist(video, playlist, i)` as called
from fetch: splice + label shifts on the playlist, then the cache (forced
after the mutation) records the membership. -/
def fetchInsert (st : FetchState) (v : VideoInfo) (i : Nat) : FetchState :=
  let p2 := Playlist.insertVideo st.playlist v i
  { st with
    playlist := p2
    cache := some (cacheAdd (cacheForce [p2] st.cache) v.id p2.id) }

/-- `playlistRegistry.addVideoToPlaylist(video, playlist)`: insert at the
current length (`Playlist.ts:56-58`).  The method has no return value. -/
def fetchAppend (st : FetchState) (v : VideoInfo) : FetchState :=
  fetchInsert st v st.playlist.videos.length

/-- `insertVideoToPlaylist(video, playlist, nextLabel[0])` when `nextLabel`
is the entry with the `undefined` key: `splice(undefined, 0, video)` inserts
at position 0 (`ToInteger(undefined) = 0`) and every `labelIndex >= undefined`
comparison is false, so no label shifts. -/
def fetchInsertAtUndefined (st : FetchState) (v : VideoInfo) : FetchState :=
  let p2 := { st.playlist with videos := v :: st.playlist.videos }
  { st with
    playlist := p2
    cache := some (cacheAdd (cacheForce [p2] st.cache) v.id p2.id) }

/-- The insertion block for a new-to-playlist video (`index.ts:835-861`):
no labels at all → plain append; no `"New"` band → append, then
`labels.set(index, "New")` where `index` is the `undefined` result of
`addVideoToPlaylist`; a `"New"` band with a next entry → insert at the next
entry's key; `"New"` last → append. -/
def fetchPlace (st : FetchState) (video : VideoInfo) : FetchState :=
  if st.playlist.labels.length = 0 then fetchAppend st video
  else
    match idxWhere (fun e => e.2 = newLabel) st.playlist.labels with
    | none =>
      let st2 := fetchAppend st video
      { st2 with playlist :=
          { st2.playlist with labels := mapSet st2.playlist.labels none newLabel } }
    | some ni =>
      match nth st.playlist.labels (ni + 1) with
      | none => fetchAppend st video
      | some e =>
        match e.1 with
        | some n => fetchInsert st video n
        | none => fetchInsertAtUndefined st video

/-- Processing of the resolved video: members are skipped
(`if (playlist.videos.includes(video)) continue`), everything else is placed. -/
def fetchHandle (st : FetchState) (video : VideoInfo) : FetchState :=
  if video ∈ st.playlist.videos then st else fetchPlace st video

/-- The `VideoInfo` constructed for an unknown id (`index.ts:814-825`),
restricted to the modelled fields. -/
def mkFetchVideo (vid : Str) (item : Snippet) : VideoInfo :=
  { id := vid, label := item.title }

/-- One iteration of the fetch-merge loop (`index.ts:804-862`): skip private
items, record the id in the batch list, resolve or create the catalog record,
then place the video.  The batch id list (`ids`) is pushed to but never read
by this revision of the loop. -/
def fetchStep (acc : FetchState × List Str) (item : Snippet) : FetchState × List Str :=
  match item.publishedAt with
  | none => acc
  | some _ =>
    let vid := item.videoId
    let ids := acc.2 ++ [vid]
    match catalogGet acc.1.catalog vid with
    | some video => (fetchHandle acc.1 video, ids)
    | none =>
      let video := mkFetchVideo vid item
      (fetchHandle { acc.1 with catalog := acc.1.catalog ++ [video] } video, ids)

/-- The whole per-playlist merge: fold the remote items in remote order with a
fresh batch id list. -/
def fetchMergePlaylist (snips : List Snippet) (st : FetchState) : FetchState :=
  (snips.foldl fetchStep (st, [])).1

/-- A remote item is settled in a fetch state: unless it is private, its video
id resolves in the catalog to a video that is a member of the playlist.  A
settled item makes `fetchStep` skip without touching the state. -/
def SnippetDone (st : FetchState) (x : Snippet) : Prop :=
  x.publishedAt ≠ none →
    ∃ v, catalogGet st.catalog x.videoId = some v ∧ v ∈ st.playlist.videos

/-! ### Persistence codec (`PlaylistRegistry.save` / `load`,
`Playlist.ts:113-219`)

The source builds a fragment array, joins it with `"\n"` and appends a final
`"\n"`; the loader splits the file on `"\n"`.  A file is therefore embedded as
its list of physical lines: the `url = <sourceId>\n` fragment contributes two
lines, an absent `sourceId` contributes the empty fragment's one blank line,
and the final `"\n"` contributes one trailing empty line. -/

def idTag : Str := ['i', 'd', ' ', '=', ' ']

def urlTag : Str := ['u', 'r', 'l', ' ', '=', ' ']

def gtMark : Str := ['>', '>', '>', ' ']

/-- The `${v.id} ${v.label}` video reference line. -/
def videoLine (v : VideoInfo) : Str := v.id ++ ' ' :: v.label

/-- The block written before a labelled video: a blank line, then one
`>>> `-prefixed line per line of the annotation (`Playlist.ts:126-130`). -/
def labelBlock (lab : Str) : List Str :=
  [] :: (jsSplit '\n' lab).map (fun l => gtMark ++ l)

/-- The `playlist.videos.flatMap((v, i) => ...)` body of `save`. -/
def saveVideoLines (m : LabelMap) : Nat → List VideoInfo → List Str
  | _, [] => []
  | i, v :: rest =>
    (match mapGet m (some i) with
     | some lab => labelBlock lab ++ [videoLine v]
     | none => [videoLine v]) ++ saveVideoLines m (i + 1) rest

/-- The full line list `save` writes for one playlist (`Playlist.ts:118-140`). -/
def saveLines (p : Playlist) : List Str :=
  (idTag ++ p.id) ::
    ((match p.sourceId with
      | some s => [urlTag ++ s, []]
      | none => [[]]) ++
      (saveVideoLines p.labels 0 p.videos ++ [[]]))

/-- Parser state of the per-file loop of `load` (`Playlist.ts:162-212`). -/
structure ParseSt where
  url : Option Str
  id : Str
  videos : List VideoInfo
  labels : LabelMap
deriving DecidableEq

/-- The per-line loop of `load` (`Playlist.ts:168-212`): trim, skip blanks,
`url = ` / `id = ` headers, `>` label lines (all-`>` lines are dropped, the
text after the leading `>` run is trimmed and newline-joined onto the label at
the current video count), otherwise a video reference line whose id is the
token before the first space (or the whole line); an id unknown to the video
registry aborts the load (`UserError`). -/
def parseGo (lookup : Str → Option VideoInfo) : List Str → ParseSt → Option ParseSt
  | [], st => some st
  | line0 :: rest, st =>
    let line := jsTrim line0
    if line = [] then parseGo lookup rest st
    else if urlTag.isPrefixOf line then
      parseGo lookup rest { st with url := some (line.drop 6) }
    else if idTag.isPrefixOf line then
      parseGo lookup rest { st with id := line.drop 5 }
    else if line.head? = some '>' then
      match idxWhere (fun c => !(c = '>')) line with
      | none => parseGo lookup rest st
      | some si =>
        let lab := jsTrim (line.drop si)
        let n := st.videos.length
        let labels2 :=
          match mapGet st.labels (some n) with
          | some old => mapSet st.labels (some n) (old ++ '\n' :: lab)
          | none => mapSet st.labels (some n) lab
        parseGo lookup rest { st with labels := labels2 }
    else
      let space := (idxWhere (fun c => c = ' ') line).getD line.length
      match lookup (line.take space) with
      | none => none
      | some video => parseGo lookup rest { st with videos := st.videos ++ [video] }

/-- Loading one playlist file: run the line loop from the initial state
(`url = null`, a fresh random id, no videos, no labels) and assemble the
`Playlist` (`Playlist.ts:162-214`); the display label comes from the file
name. -/
def parsePlaylist (lookup : Str → Option VideoInfo) (freshId fileLabel : Str)
    (lines : List Str) : Option Playlist :=
  (parseGo lookup lines ⟨none, freshId, [], []⟩).map
    (fun st => ⟨st.id, st.url, fileLabel, st.videos, st.labels⟩)

/-- The restriction of a labels map to the numeric keys in `[i, i+n)`, in
ascending key order: the labels map a saved file parses back to. -/
def collectFrom (m : LabelMap) : Nat → Nat → LabelMap
  | _, 0 => []
  | i, n + 1 =>
    (match mapGet m (some i) with
     | some lab => [(some i, lab)]
     | none => []) ++ collectFrom m (i + 1) n

/-! ### Well-formedness conditions for round-tripping -/

/-- No whitespace character at all. -/
def AllNonWs (s : Str) : Prop := ∀ c ∈ s, isWs c = false

/-- A playlist id / source id that survives the header line: nonempty,
newline-free (so the fragment is one physical line) and with no trailing
whitespace for `trim` to eat. -/
def IdWF (s : Str) : Prop := s ≠ [] ∧ '\n' ∉ s ∧ trimR s = s

/-- A video whose reference line parses back to the video itself: nonempty
whitespace-free id that does not start with `>` and is not the token `url` or
`id`, a newline-free display label, and presence in the video registry. -/
def VideoWF (lookup : Str → Option VideoInfo) (v : VideoInfo) : Prop :=
  v.id ≠ [] ∧ AllNonWs v.id ∧ v.id.head? ≠ some '>' ∧
    v.id ≠ "url".toList ∧ v.id ≠ "id".toList ∧ '\n' ∉ v.label ∧ lookup v.id = some v

/-- One line of an annotation that survives the `>>> ` round trip: nonempty
and trim-stable. -/
def PieceWF (s : Str) : Prop := s ≠ [] ∧ trimL s = s ∧ trimR s = s

/-- An annotation whose lines all survive the round trip. -/
def LabelWF (lab : Str) : Prop := ∀ piece ∈ jsSplit '\n' lab, PieceWF piece

instance (s : Str) : Decidable (AllNonWs s) := by
  unfold AllNonWs
  exact List.decidableBAll _ s

instance (s : Str) : Decidable (IdWF s) := by
  unfold IdWF
  infer_instance

instance (lookup : Str → Option VideoInfo) (v : VideoInfo) :
    Decidable (VideoWF lookup v) := by
  unfold VideoWF
  infer_instance

instance (s : Str) : Decidable (PieceWF s) := by
  unfold PieceWF
  infer_instance

instance (lab : Str) : Decidable (LabelWF lab) := by
  unfold LabelWF
  exact List.decidableBAll _ _

/-! ### Concrete test data -/

/-- A one-character test video. -/
def mkVid (c : Char) : VideoInfo := ⟨[c], [c]⟩

/-- Playlist with 3 videos and labels `{0: "A", 2: "B"}` (the claim C7
scenario). -/
def c7playlist : Playlist :=
  ⟨['p'], none, ['P'], [mkVid 'a', mkVid 'b', mkVid 'c'],
    [(some 0, ['A']), (some 2, ['B'])]⟩

/-- The video inserted at position 1 in the C7 scenario. -/
def c7new : VideoInfo := mkVid 'x'

/-- A playlist already containing the video about to be inserted. -/
def c4playlist : Playlist := ⟨['p'], none, ['P'], [mkVid 'a'], []⟩

/-- Fetch state for the C2 scenario: catalog knows `a` and `b`, the playlist
holds only `a` and carries one label annotation, none of them `"New"`. -/
def c2state : FetchState :=
  ⟨[mkVid 'a', mkVid 'b'], ⟨['p'], none, ['P'], [mkVid 'a'], [(some 0, ['O'])]⟩, none⟩

/-- The remote item for video `b` in the C2 scenario. -/
def c2item : Snippet := ⟨['b'], ['t'], some ['d']⟩

/-- Fetch state for the C1 scenario: the playlist holds `[a, c]`, the catalog
knows `a`, `b`, `c`, no label annotations. -/
def c1state : FetchState :=
  ⟨[mkVid 'a', mkVid 'b', mkVid 'c'], ⟨['p'], none, ['P'], [mkVid 'a', mkVid 'c'], []⟩, none⟩

/-- Remote order for the C1 scenario: `a` (already a member) then `b` (new). -/
def c1remote : List Snippet := [⟨['a'], ['t'], some ['d']⟩, ⟨['b'], ['t'], some ['d']⟩]

/-- Registry for the C6 scenario: one playlist containing `[a, b]`, cache not
yet built. -/
def c6reg : PlaylistRegistry :=
  ⟨[⟨['p'], none, ['P'], [mkVid 'a', mkVid 'b'], []⟩], none⟩

/-- Video registry lookup for the persistence scenarios. -/
def rtLookup (s : Str) : Option VideoInfo :=
  if s = ['a'] then some (mkVid 'a') else none

/-- A playlist whose only annotation contains an empty line (the C8
counterexample). -/
def c8badPlaylist : Playlist :=
  ⟨['x'], none, ['P'], [mkVid 'a'], [(some 0, ['L', '\n', '\n', 'M'])]⟩

/-- A playlist carrying a trailing annotation at index 1 = its video count
(the C10 witness scenario). -/
def c10playlist : Playlist :=
  ⟨['x'], none, ['P'], [mkVid 'a'], [(some 0, ['L']), (some 1, ['T'])]⟩

/-- A well-formed playlist for the C8 witness. -/
def c8goodPlaylist : Playlist :=
  ⟨['x'], some ['u'], ['P'], [mkVid 'a'], [(some 0, ['L', '\n', 'M'])]⟩

/-! ## Helper lemmas -/

theorem mapGet_mapSet_self (m : LabelMap) (k : LKey) (v : Str) :
    mapGet (mapSet m k v) k = some v := by
  induction m with
  | nil => simp [mapSet, mapGet]
  | cons e rest ih =>
    by_cases h : e.1 = k
    · simp [mapSet, mapGet, h]
    · simp [mapSet, mapGet, h, ih]

theorem idxWhere_eq_none {α : Type} (pr : α → Bool) (l : List α)
    (h : ∀ x ∈ l, pr x = false) : idxWhere pr l = none := by
  induction l with
  | nil => rfl
  | cons x rest ih =>
    have hx := h x (by simp)
    simp [idxWhere, hx, ih fun y hy => h y (by simp [hy])]

/-! ## Claims -/

/-- C7: for a playlist with 3 videos and labels `{0: "A", 2: "B"}`, inserting
a new video at position 1 yields labels `{0: "A", 3: "B"}`, and subsequently
removing the inserted video restores the playlist exactly — in particular the
labels map `{0: "A", 2: "B"}` — so remove at the same position inverts the
insert on the labels map when no collision occurs. -/
theorem claim_C7 :
    (Playlist.insertVideo c7playlist c7new 1).labels = [(some 0, ['A']), (some 3, ['B'])] ∧
      Playlist.removeVideo (Playlist.insertVideo c7playlist c7new 1) c7new =
        (true, c7playlist) := by
  decide

/-- C4 counterexample: `insertVideoToPlaylist` performs a raw splice with no
duplicate check, so inserting a video that is already a member leaves two
entries with the same video id in `P.videos`. -/
theorem claim_C4_counterexample :
    (Playlist.insertVideo c4playlist (mkVid 'a') 0).videos = [mkVid 'a', mkVid 'a'] ∧
      ¬ (Playlist.insertVideo c4playlist (mkVid 'a') 0).videos.Nodup := by
  decide

/-- C4 (amended): `insertVideoToPlaylist` (and hence `addVideoToPlaylist`,
which is insertion at the current length) leaves no duplicate entries in
`P.videos` provided the inserted video is not already a member and the
playlist was duplicate-free — the contract the spec assigns to callers. -/
theorem claim_C4 (p : Playlist) (v : VideoInfo) (i : Nat)
    (hnd : p.videos.Nodup) (hv : v ∉ p.videos) :
    (Playlist.insertVideo p v i).videos.Nodup := by
  unfold Playlist.insertVideo spliceInsert
  simp only []
  rw [List.nodup_middle, List.take_append_drop]
  exact List.nodup_cons.2 ⟨hv, hnd⟩

/-- Witness for C4 at a concrete input. -/
theorem claim_C4_witness :
    c7playlist.videos.Nodup ∧ c7new ∉ c7playlist.videos ∧
      (Playlist.insertVideo c7playlist c7new 1).videos.Nodup :=
  ⟨by decide, by decide, claim_C4 c7playlist c7new 1 (by decide) (by decide)⟩

/-- C3 counterexample: in the insert direction the collision branch of the
label shift stores `moved ++ "\n" ++ existing` — the moved (new) content is
placed *before* the existing content, not after it as the claim states (with
moved text `"A"` and existing text `"B"` the code stores `"A\nB"`, the claim
predicts `"B\nA"`). -/
theorem claim_C3_counterexample :
    shiftUpStep 1 [(some 2, ['B'])] (some 1, ['A']) = [(some 2, ['A', '\n', 'B'])] ∧
      (['A', '\n', 'B'] : Str) ≠ ['B', '\n', 'A'] := by
  decide

/-- C3 (amended): the collision convention differs between the two
directions.  When `insertVideoToPlaylist` shifts a label from `li` to `li+1`
and that target already holds a label, the stored text is
`moved ++ "\n" ++ existing` (moved content first); when
`removeVideoFromPlaylist` shifts a label from `li` to `li-1` onto an occupied
target, the stored text is `existing ++ "\n" ++ moved` (moved content last). -/
theorem claim_C3 (idx li : Nat) (lab ex : Str) (m : LabelMap) :
    (idx ≤ li → mapGet (mapDelete m (some li)) (some (li + 1)) = some ex →
      mapGet (shiftUpStep idx m (some li, lab)) (some (li + 1)) = some (lab ++ '\n' :: ex)) ∧
    (idx < li → mapGet (mapDelete m (some li)) (some (li - 1)) = some ex →
      mapGet (shiftDownStep idx m (some li, lab)) (some (li - 1)) = some (ex ++ '\n' :: lab)) := by
  constructor
  · intro hle hex
    unfold shiftUpStep
    simp only [if_pos hle, hex]
    exact mapGet_mapSet_self _ _ _
  · intro hlt hex
    unfold shiftDownStep
    simp only [if_pos hlt, hex]
    exact mapGet_mapSet_self _ _ _

/-- Witness for C3 at a concrete input exercising both directions. -/
theorem claim_C3_witness :
    ((0 : Nat) ≤ 1 ∧
        mapGet (mapDelete [(some 2, ['B']), (some 0, ['B'])] (some 1)) (some 2) = some ['B'] ∧
        mapGet (shiftUpStep 0 [(some 2, ['B']), (some 0, ['B'])] (some 1, ['A'])) (some 2) =
          some ['A', '\n', 'B']) ∧
      ((0 : Nat) < 1 ∧
        mapGet (mapDelete [(some 2, ['B']), (some 0, ['B'])] (some 1)) (some 0) = some ['B'] ∧
        mapGet (shiftDownStep 0 [(some 2, ['B']), (some 0, ['B'])] (some 1, ['A'])) (some 0) =
          some ['B', '\n', 'A']) :=
  ⟨⟨by decide, by decide,
      (claim_C3 0 1 ['A'] ['B'] [(some 2, ['B']), (some 0, ['B'])]).1 (by decide) (by decide)⟩,
    ⟨by decide, by decide,
      (claim_C3 0 1 ['A'] ['B'] [(some 2, ['B']), (some 0, ['B'])]).2 (by decide) (by decide)⟩⟩

/-- C9: removing a video that is not contained in the playlist returns
`false` (the "not found" signal, no throw) and leaves the registry — the
playlist's `videos` and `labels` and the membership cache — completely
unchanged. -/
theorem claim_C9 (reg : PlaylistRegistry) (v : VideoInfo) (pid : Str) (p : Playlist)
    (hp : findPl reg.playlists pid = some p) (hv : v ∉ p.videos) :
    PlaylistRegistry.removeVideoFromPlaylist reg v pid = (false, reg) := by
  have hrm : Playlist.removeVideo p v = (false, p) := by
    unfold Playlist.removeVideo
    rw [idxWhere_eq_none _ _ fun x hx => by
      simp only [decide_eq_false_iff_not]
      exact fun hxv => hv (hxv ▸ hx)]
  unfold PlaylistRegistry.removeVideoFromPlaylist
  simp only [hp, hrm]

/-- Witness for C9 at a concrete input. -/
theorem claim_C9_witness :
    findPl c6reg.playlists ['p'] = some ⟨['p'], none, ['P'], [mkVid 'a', mkVid 'b'], []⟩ ∧
      mkVid 'z' ∉ ([mkVid 'a', mkVid 'b'] : List VideoInfo) ∧
      PlaylistRegistry.removeVideoFromPlaylist c6reg (mkVid 'z') ['p'] = (false, c6reg) :=
  ⟨by decide, by decide,
    claim_C9 c6reg (mkVid 'z') ['p'] ⟨['p'], none, ['P'], [mkVid 'a', mkVid 'b'], []⟩
      (by decide) (by decide)⟩

/-- C2 (code bug): when a new-to-playlist video arrives at a playlist that
has label annotations but no `"New"` band, the video is appended, but the
`"New"` label is keyed at the `undefined` value returned by the void method
`addVideoToPlaylist` (`const index = playlistRegistry.addVideoToPlaylist(...)`;
`playlist.labels.set(index, "New")`), not at the numeric index where the
video landed: afterwards `labels.get(1)` — the former length — is absent,
contradicting the claim and the code's own comment
"Add the video and create the "New" label at its position". -/
theorem claim_C2 :
    (fetchStep (c2state, []) c2item).1.playlist.videos = [mkVid 'a', mkVid 'b'] ∧
      (fetchStep (c2state, []) c2item).1.playlist.labels =
        [(some 0, ['O']), (none, newLabel)] ∧
      mapGet (fetchStep (c2state, []) c2item).1.playlist.labels (some 1) = none := by
  decide

/-- C1 counterexample: with local playlist `[a, c]`, no label annotations,
and remote order `[a, b]` where `a` is already a member and `b` is new, the
claimed backward scan would insert `b` immediately after `a`, i.e. at
position 1, producing `[a, b, c]`; the code never performs that scan and
appends, producing `[a, c, b]`. -/
theorem claim_C1_counterexample :
    (fetchMergePlaylist c1remote c1state).playlist.videos =
        [mkVid 'a', mkVid 'c', mkVid 'b'] ∧
      ([mkVid 'a', mkVid 'c', mkVid 'b'] : List VideoInfo) ≠
        [mkVid 'a', mkVid 'b', mkVid 'c'] := by
  decide

/-- C1 (amended): the fetch-merge loop performs no backward scan through the
remote items processed so far: the batch id list it accumulates never
influences the produced state, and every remote item that resolves to a
new-to-playlist video is placed by the label-aware insertion rule
(`fetchPlace`) unconditionally. -/
theorem claim_C1 (st : FetchState) (ids ids2 : List Str) (item : Snippet) (v : VideoInfo) :
    ((fetchStep (st, ids) item).1 = (fetchStep (st, ids2) item).1) ∧
      (item.publishedAt ≠ none → catalogGet st.catalog item.videoId = some v →
        v ∉ st.playlist.videos → (fetchStep (st, ids) item).1 = fetchPlace st v) := by
  constructor
  · cases hpub : item.publishedAt with
    | none => simp [fetchStep, hpub]
    | some d =>
      cases hcat : catalogGet st.catalog item.videoId with
      | none => simp [fetchStep, hpub, hcat]
      | some w => simp [fetchStep, hpub, hcat]
  · intro hne hcat hmem
    cases hpub : item.publishedAt with
    | none => exact absurd hpub hne
    | some d =>
      simp only [fetchStep, hpub, hcat]
      unfold fetchHandle
      simp only [if_neg hmem]

/-- C6 (code bug): `deletePlaylist` iterates `playlist.videos` with a live
array iterator while `removeVideoFromPlaylist` splices elements out of that
same array, so every other video is skipped.  Deleting a playlist holding
`[a, b]` removes only `a`'s membership: afterwards the registry has no
playlists at all, yet `isVideoOrphan(b)` still answers `false` (while
`isVideoOrphan(a)` answers `true`), contradicting "orphan iff member of zero
playlists". -/
theorem claim_C6 :
    PlaylistRegistry.deletePlaylist c6reg ['p'] =
        ⟨[], some [(['b'], [['p']])]⟩ ∧
      (PlaylistRegistry.deletePlaylist c6reg ['p']).playlists = [] ∧
      PlaylistRegistry.isVideoOrphan (PlaylistRegistry.deletePlaylist c6reg ['p'])
        (mkVid 'b') = false ∧
      PlaylistRegistry.isVideoOrphan (PlaylistRegistry.deletePlaylist c6reg ['p'])
        (mkVid 'a') = true := by
  have h : PlaylistRegistry.deletePlaylist c6reg ['p'] = ⟨[], some [(['b'], [['p']])]⟩ := by
    simp [PlaylistRegistry.deletePlaylist, deleteLoop, findPl, c6reg, mkVid,
      PlaylistRegistry.removeVideoFromPlaylist, Playlist.removeVideo, idxWhere, replacePl,
      cacheForce, buildCache, cacheAdd, cacheDelete, erasePl, List.eraseIdx, shiftDownStep]
  refine ⟨h, by rw [h], by rw [h]; decide, by rw [h]; decide⟩

/-! ### Idempotence of fetch-merge (C5) -/

theorem catalogGet_append_of_some (c : List VideoInfo) (w v : VideoInfo) (vid : Str)
    (h : catalogGet c vid = some v) : catalogGet (c ++ [w]) vid = some v := by
  induction c with
  | nil => cases h
  | cons x rest ih =>
    by_cases hx : x.id = vid
    · simpa [catalogGet, hx] using h
    · simp only [catalogGet, if_neg hx] at h
      simpa [catalogGet, hx] using ih h

theorem catalogGet_append_self (c : List VideoInfo) (w : VideoInfo) (vid : Str)
    (h : catalogGet c vid = none) (hw : w.id = vid) :
    catalogGet (c ++ [w]) vid = some w := by
  induction c with
  | nil => simp [catalogGet, hw]
  | cons x rest ih =>
    by_cases hx : x.id = vid
    · simp [catalogGet, hx] at h
    · simp only [catalogGet, if_neg hx] at h
      simpa [catalogGet, hx] using ih h

theorem mem_spliceInsert_self (l : List VideoInfo) (i : Nat) (v : VideoInfo) :
    v ∈ spliceInsert l i v :=
  List.mem_append_right _ (List.mem_cons_self _ _)

theorem mem_spliceInsert_of_mem (l : List VideoInfo) (i : Nat) (v w : VideoInfo)
    (h : w ∈ l) : w ∈ spliceInsert l i v := by
  rw [← List.take_append_drop i l] at h
  rcases List.mem_append.1 h with h1 | h2
  · exact List.mem_append_left _ h1
  · exact List.mem_append_right _ (List.mem_cons_of_mem _ h2)

theorem fetchPlace_catalog (st : FetchState) (v : VideoInfo) :
    (fetchPlace st v).catalog = st.catalog := by
  unfold fetchPlace
  split
  · rfl
  · split
    · rfl
    · split
      · rfl
      · split <;> rfl

theorem fetchPlace_mem_self (st : FetchState) (v : VideoInfo) :
    v ∈ (fetchPlace st v).playlist.videos := by
  unfold fetchPlace
  split
  · exact mem_spliceInsert_self _ _ _
  · split
    · exact mem_spliceInsert_self _ _ _
    · split
      · exact mem_spliceInsert_self _ _ _
      · split
        · exact mem_spliceInsert_self _ _ _
        · exact List.mem_cons_self _ _

theorem fetchPlace_mem_mono (st : FetchState) (v w : VideoInfo)
    (h : w ∈ st.playlist.videos) : w ∈ (fetchPlace st v).playlist.videos := by
  unfold fetchPlace
  split
  · exact mem_spliceInsert_of_mem _ _ _ _ h
  · split
    · exact mem_spliceInsert_of_mem _ _ _ _ h
    · split
      · exact mem_spliceInsert_of_mem _ _ _ _ h
      · split
        · exact mem_spliceInsert_of_mem _ _ _ _ h
        · exact List.mem_cons_of_mem _ h

theorem fetchHandle_catalog (st : FetchState) (v : VideoInfo) :
    (fetchHandle st v).catalog = st.catalog := by
  unfold fetchHandle
  split
  · rfl
  · exact fetchPlace_catalog st v

theorem fetchHandle_mem_self (st : FetchState) (v : VideoInfo) :
    v ∈ (fetchHandle st v).playlist.videos := by
  unfold fetchHandle
  split
  · assumption
  · exact fetchPlace_mem_self st v

theorem fetchHandle_mem_mono (st : FetchState) (v w : VideoInfo)
    (h : w ∈ st.playlist.videos) : w ∈ (fetchHandle st v).playlist.videos := by
  unfold fetchHandle
  split
  · exact h
  · exact fetchPlace_mem_mono st v w h

theorem fetchStep_done_self (acc : FetchState × List Str) (x : Snippet) :
    SnippetDone (fetchStep acc x).1 x := by
  intro hne
  cases hpub : x.publishedAt with
  | none => exact absurd hpub hne
  | some d =>
    cases hcat : catalogGet acc.1.catalog x.videoId with
    | some w =>
      simp only [fetchStep, hpub, hcat]
      exact ⟨w, by rw [fetchHandle_catalog]; exact hcat, fetchHandle_mem_self _ _⟩
    | none =>
      simp only [fetchStep, hpub, hcat]
      refine ⟨mkFetchVideo x.videoId x, ?_, fetchHandle_mem_self _ _⟩
      rw [fetchHandle_catalog]
      exact catalogGet_append_self _ _ _ hcat rfl

theorem fetchStep_done_preserved (acc : FetchState × List Str) (x y : Snippet)
    (h : SnippetDone acc.1 y) : SnippetDone (fetchStep acc x).1 y := by
  intro hne
  obtain ⟨v, hcat, hmem⟩ := h hne
  cases hpub : x.publishedAt with
  | none =>
    simp only [fetchStep, hpub]
    exact ⟨v, hcat, hmem⟩
  | some d =>
    cases hcatx : catalogGet acc.1.catalog x.videoId with
    | some w =>
      simp only [fetchStep, hpub, hcatx]
      exact ⟨v, by rw [fetchHandle_catalog]; exact hcat, fetchHandle_mem_mono _ _ _ hmem⟩
    | none =>
      simp only [fetchStep, hpub, hcatx]
      refine ⟨v, ?_, fetchHandle_mem_mono _ _ _ hmem⟩
      rw [fetchHandle_catalog]
      exact catalogGet_append_of_some _ _ _ _ hcat

theorem fetchStep_noop (st : FetchState) (ids : List Str) (x : Snippet)
    (h : SnippetDone st x) : ∃ ids2, fetchStep (st, ids) x = (st, ids2) := by
  cases hpub : x.publishedAt with
  | none => exact ⟨ids, by simp [fetchStep, hpub]⟩
  | some d =>
    obtain ⟨v, hcat, hmem⟩ := h (by simp [hpub])
    refine ⟨ids ++ [x.videoId], ?_⟩
    simp [fetchStep, hpub, hcat, fetchHandle, hmem]

theorem foldl_fetch_preserved (snips : List Snippet) :
    ∀ (acc : FetchState × List Str) (y : Snippet), SnippetDone acc.1 y →
      SnippetDone (snips.foldl fetchStep acc).1 y := by
  induction snips with
  | nil => intro acc y h; exact h
  | cons x rest ih =>
    intro acc y h
    exact ih (fetchStep acc x) y (fetchStep_done_preserved acc x y h)

theorem foldl_fetch_done (snips : List Snippet) :
    ∀ (acc : FetchState × List Str) (x : Snippet), x ∈ snips →
      SnippetDone (snips.foldl fetchStep acc).1 x := by
  induction snips with
  | nil => intro acc x hx; cases hx
  | cons y rest ih =>
    intro acc x hx
    cases hx with
    | head =>
      exact foldl_fetch_preserved rest (fetchStep acc y) y (fetchStep_done_self acc y)
    | tail _ hm => exact ih (fetchStep acc y) x hm

theorem foldl_fetch_noop (snips : List Snippet) :
    ∀ (st : FetchState), (∀ x ∈ snips, SnippetDone st x) →
      ∀ ids, (snips.foldl fetchStep (st, ids)).1 = st := by
  induction snips with
  | nil => intro st _ ids; rfl
  | cons x rest ih =>
    intro st h ids
    obtain ⟨ids2, hstep⟩ := fetchStep_noop st ids x (h x (by simp))
    rw [List.foldl_cons, hstep]
    exact ih st (fun y hy => h y (List.mem_cons_of_mem _ hy)) ids2

/-- C5: fetch-merge reconciliation is idempotent.  Running the per-playlist
merge a second time with the same remote snippet list leaves the whole state
— catalog, playlist videos and labels, membership cache — exactly as it was
after the first run: after the first run every non-private remote id resolves
in the catalog to a playlist member, so the second run takes the skip path on
every item. -/
theorem claim_C5 (snips : List Snippet) (st : FetchState) :
    fetchMergePlaylist snips (fetchMergePlaylist snips st) = fetchMergePlaylist snips st := by
  unfold fetchMergePlaylist
  exact foldl_fetch_noop snips _ (fun x hx => foldl_fetch_done snips (st, []) x hx) []

/-! ### String-level helper lemmas for the persistence codec -/

theorem dropWhile_append_split {p : Char → Bool} (X Y : Str) :
    (X ++ Y).dropWhile p =
      if X.dropWhile p = [] then Y.dropWhile p else X.dropWhile p ++ Y := by
  induction X with
  | nil => simp
  | cons c t ih =>
    by_cases hc : p c
    · simpa [List.dropWhile_cons, hc] using ih
    · simp [List.dropWhile_cons, hc]

theorem trimL_cons_of_head (c : Char) (s : Str) (h : isWs c = false) :
    trimL (c :: s) = c :: s := by
  simp [trimL, List.dropWhile_cons, h]

theorem trimR_eq_nil_iff (s : Str) : trimR s = [] ↔ ∀ c ∈ s, isWs c = true := by
  unfold trimR
  rw [List.reverse_eq_nil_iff, List.dropWhile_eq_nil_iff]
  constructor
  · intro h c hc
    exact h c (List.mem_reverse.2 hc)
  · intro h c hc
    exact h c (List.mem_reverse.1 hc)

theorem trimR_append (l1 l2 : Str) :
    trimR (l1 ++ l2) = if trimR l2 = [] then trimR l1 else l1 ++ trimR l2 := by
  unfold trimR
  rw [List.reverse_append, dropWhile_append_split]
  by_cases h : l2.reverse.dropWhile isWs = []
  · rw [if_pos h, if_pos (by rw [h]; rfl)]
  · rw [if_neg h, if_neg (by simpa [List.reverse_eq_nil_iff] using h)]
    rw [List.reverse_append, List.reverse_reverse]

theorem trimL_of_allNonWs (s : Str) (h : AllNonWs s) : trimL s = s := by
  cases s with
  | nil => rfl
  | cons c t => exact trimL_cons_of_head c t (h c (by simp))

theorem trimR_of_allNonWs (s : Str) (h : AllNonWs s) : trimR s = s := by
  unfold trimR
  rw [List.dropWhile_eq_self_iff.2, List.reverse_reverse]
  intro hl
  rw [h _ (List.mem_reverse.1 (s.reverse.get_mem 0 hl))]
  simp

theorem trimR_pre (s : Str) : trimR s <+: s := by
  have h := List.dropWhile_suffix (l := s.reverse) isWs
  have := List.reverse_prefix.2 h
  simpa [trimR] using this

theorem trimR_cons_shape (c : Char) (l : Str) :
    trimR (c :: l) = [] ∨ ∃ t, trimR (c :: l) = c :: t := by
  obtain ⟨r, hr⟩ := trimR_pre (c :: l)
  cases hp : trimR (c :: l) with
  | nil => exact Or.inl rfl
  | cons d t =>
    right
    rw [hp] at hr
    cases hr
    exact ⟨t, rfl⟩

theorem jsTrim_nil : jsTrim [] = [] := rfl

theorem jsSplit_ne_nil (sep : Char) (s : Str) : jsSplit sep s ≠ [] := by
  cases s with
  | nil => simp [jsSplit]
  | cons c rest =>
    by_cases hc : c = sep
    · simp [jsSplit, hc]
    · simp only [jsSplit, if_neg hc]
      cases jsSplit sep rest <;> simp

theorem jsJoin_cons_ne (sep : Char) (a : Str) (ps : List Str) (h : ps ≠ []) :
    jsJoin sep (a :: ps) = a ++ sep :: jsJoin sep ps := by
  cases ps with
  | nil => exact absurd rfl h
  | cons q qs => rfl

theorem jsJoin_cons_cons (sep c : Char) (p : Str) (ps : List Str) :
    jsJoin sep ((c :: p) :: ps) = c :: jsJoin sep (p :: ps) := by
  cases ps <;> rfl

theorem jsJoin_jsSplit (sep : Char) (s : Str) : jsJoin sep (jsSplit sep s) = s := by
  induction s with
  | nil => rfl
  | cons c rest ih =>
    by_cases hc : c = sep
    · rw [jsSplit, if_pos hc,
        jsJoin_cons_ne sep [] (jsSplit sep rest) (jsSplit_ne_nil sep rest), ih, hc]
      rfl
    · rw [jsSplit, if_neg hc]
      cases hs : jsSplit sep rest with
      | nil => exact absurd hs (jsSplit_ne_nil sep rest)
      | cons p ps =>
        rw [jsJoin_cons_cons]
        rw [hs] at ih
        rw [ih]

theorem foldl_join (ps : List Str) : ∀ acc : Str,
    ps.foldl (fun a q => a ++ '\n' :: q) acc = jsJoin '\n' (acc :: ps) := by
  induction ps with
  | nil => intro acc; rfl
  | cons q qs ih =>
    intro acc
    rw [List.foldl_cons, ih (acc ++ '\n' :: q),
      jsJoin_cons_ne '\n' acc (q :: qs) (by simp)]
    cases qs with
    | nil => simp [jsJoin]
    | cons r rs =>
      rw [jsJoin_cons_ne '\n' (acc ++ '\n' :: q) (r :: rs) (by simp),
        jsJoin_cons_ne '\n' q (r :: rs) (by simp)]
      simp

/-! ### Label-map helper lemmas -/

theorem mapSet_absent (m : LabelMap) (k : LKey) (v : Str) (h : mapGet m k = none) :
    mapSet m k v = m ++ [(k, v)] := by
  induction m with
  | nil => rfl
  | cons e rest ih =>
    by_cases he : e.1 = k
    · simp [mapGet, he] at h
    · simp only [mapGet, if_neg he] at h
      simp [mapSet, he, ih h]

theorem mapSet_get_self (m : LabelMap) (k : LKey) (v : Str) (h : mapGet m k = some v) :
    mapSet m k v = m := by
  induction m with
  | nil => cases h
  | cons e rest ih =>
    by_cases he : e.1 = k
    · simp only [mapGet, if_pos he] at h
      cases h
      simp only [mapSet, if_pos he]
      rw [← he]
    · simp only [mapGet, if_neg he] at h
      simp [mapSet, he, ih h]

theorem mapSet_mapSet (m : LabelMap) (k : LKey) (v w : Str) :
    mapSet (mapSet m k v) k w = mapSet m k w := by
  induction m with
  | nil => simp [mapSet]
  | cons e rest ih =>
    by_cases he : e.1 = k
    · simp [mapSet, he]
    · simp [mapSet, he, ih]

theorem mapGet_append_of_none (m1 m2 : LabelMap) (k : LKey) (h : mapGet m1 k = none) :
    mapGet (m1 ++ m2) k = mapGet m2 k := by
  induction m1 with
  | nil => rfl
  | cons e rest ih =>
    by_cases he : e.1 = k
    · simp [mapGet, he] at h
    · simp only [mapGet, if_neg he] at h
      simp [mapGet, he, ih h]

theorem mapSet_append_last (m1 : LabelMap) (k : LKey) (v w : Str)
    (h : mapGet m1 k = none) : mapSet (m1 ++ [(k, v)]) k w = m1 ++ [(k, w)] := by
  induction m1 with
  | nil => simp [mapSet]
  | cons e rest ih =>
    by_cases he : e.1 = k
    · simp [mapGet, he] at h
    · simp only [mapGet, if_neg he] at h
      simp [mapSet, he, ih h]

theorem mapGet_none_of_keys (m : LabelMap) (k : LKey) (h : ∀ e ∈ m, e.1 ≠ k) :
    mapGet m k = none := by
  induction m with
  | nil => rfl
  | cons e rest ih =>
    have he := h e (by simp)
    simp [mapGet, he, ih fun e2 h2 => h e2 (by simp [h2])]

theorem mapGet_eq_some_mem (m : LabelMap) (k : LKey) (v : Str)
    (h : mapGet m k = some v) : ∃ e ∈ m, e.1 = k := by
  induction m with
  | nil => cases h
  | cons e rest ih =>
    by_cases he : e.1 = k
    · exact ⟨e, by simp, he⟩
    · simp only [mapGet, if_neg he] at h
      obtain ⟨e2, h2, hk⟩ := ih h
      exact ⟨e2, by simp [h2], hk⟩

theorem mapGet_collectFrom (m : LabelMap) : ∀ (n i k : Nat),
    mapGet (collectFrom m i n) (some k) =
      if i ≤ k ∧ k < i + n then mapGet m (some k) else none := by
  intro n
  induction n with
  | zero =>
    intro i k
    simp only [collectFrom, mapGet]
    rw [if_neg (by omega)]
  | succ n ih =>
    intro i k
    cases hm : mapGet m (some i) with
    | none =>
      simp only [collectFrom, hm, List.nil_append, ih (i + 1) k]
      by_cases hk : k = i
      · subst hk
        rw [if_neg (by omega), if_pos (by omega), hm]
      · by_cases hr : i + 1 ≤ k ∧ k < i + 1 + n
        · rw [if_pos hr, if_pos (by omega)]
        · rw [if_neg hr, if_neg (by omega)]
    | some lab =>
      simp only [collectFrom, hm, List.cons_append, List.nil_append, mapGet]
      by_cases hk : k = i
      · subst hk
        rw [if_pos rfl, if_pos (by omega), hm]
      · rw [if_neg (by simp only [Option.some.injEq]; omega), ih (i + 1) k]
        by_cases hr : i + 1 ≤ k ∧ k < i + 1 + n
        · rw [if_pos hr, if_pos (by omega)]
        · rw [if_neg hr, if_neg (by omega)]

theorem mapGet_collectFrom_none (m : LabelMap) : ∀ (n i : Nat),
    mapGet (collectFrom m i n) none = none := by
  intro n
  induction n with
  | zero => intro i; rfl
  | succ n ih =>
    intro i
    cases hm : mapGet m (some i) with
    | none => simpa [collectFrom, hm] using ih (i + 1)
    | some lab => simpa [collectFrom, hm, mapGet] using ih (i + 1)

/-! ### Prefix and index lemmas for the line parser -/

theorem isPrefixOf_append_self (l r : Str) : l.isPrefixOf (l ++ r) = true := by
  induction l with
  | nil => simp [List.isPrefixOf]
  | cons c t ih => simp [List.isPrefixOf, ih]

theorem idxWhere_all_append {pr : Char → Bool} (l1 l2 : Str)
    (h : ∀ c ∈ l1, pr c = false) :
    idxWhere pr (l1 ++ l2) = (idxWhere pr l2).map (fun n => n + l1.length) := by
  induction l1 with
  | nil => simp
  | cons c t ih =>
    have hc := h c (by simp)
    have iht := ih fun d hd => h d (by simp [hd])
    show idxWhere pr (c :: (t ++ l2)) = _
    rw [idxWhere, if_neg (by simp [hc]), iht]
    cases idxWhere pr l2 with
    | none => rfl
    | some n =>
      simp only [Option.map_some', Option.some.injEq, List.length_cons]
      omega

theorem idxWhere_space_at (id t : Str) (hws : AllNonWs id) :
    idxWhere (fun c => c = ' ') (id ++ ' ' :: t) = some id.length := by
  rw [idxWhere_all_append id (' ' :: t) fun c hc => by
    have := hws c hc
    simp only [decide_eq_false_iff_not]
    intro hsp
    rw [hsp] at this
    simp [isWs] at this]
  simp [idxWhere]

theorem idxWhere_space_none (id : Str) (hws : AllNonWs id) :
    idxWhere (fun c => c = ' ') id = none := by
  apply idxWhere_eq_none
  intro c hc
  have := hws c hc
  simp only [decide_eq_false_iff_not]
  intro hsp
  rw [hsp] at this
  simp [isWs] at this

/-- A whitespace-free id other than `url` never lets a saved video line be
mistaken for a `url = ` header. -/
theorem urlTag_not_pre (id T : Str) (hws : AllNonWs id)
    (hurl : id ≠ "url".toList) (hT : T = [] ∨ ∃ t, T = ' ' :: t) :
    urlTag.isPrefixOf (id ++ T) = false := by
  have hsp : ∀ c ∈ id, (' ' == c) = false := by
    intro c hc
    have := hws c hc
    simp only [beq_eq_false_iff_ne, ne_eq]
    intro hsp
    rw [← hsp] at this
    simp [isWs] at this
  rcases id with _ | ⟨a, _ | ⟨b, _ | ⟨c, _ | ⟨d, rest⟩⟩⟩⟩
  · rcases hT with rfl | ⟨t, rfl⟩
    · rfl
    · simp [urlTag, List.isPrefixOf]
  · rcases hT with rfl | ⟨t, rfl⟩
    · simp [urlTag, List.isPrefixOf]
    · simp [urlTag, List.isPrefixOf]
  · rcases hT with rfl | ⟨t, rfl⟩
    · simp [urlTag, List.isPrefixOf]
    · simp [urlTag, List.isPrefixOf]
  · rcases hT with rfl | ⟨t, rfl⟩
    · simp [urlTag, List.isPrefixOf]
    · by_cases ha : a = 'u'
      · by_cases hb : b = 'r'
        · by_cases hc : c = 'l'
          · exact absurd (by rw [ha, hb, hc]; rfl) hurl
          · simp [urlTag, List.isPrefixOf]
            intro _ _ h3
            exact absurd h3.symm hc
        · simp [urlTag, List.isPrefixOf]
          intro _ h2
          exact absurd h2.symm hb
      · simp [urlTag, List.isPrefixOf]
        intro h1
        exact absurd h1.symm ha
  · have hd := hsp d (by simp)
    simp [urlTag, List.isPrefixOf, hd]

/-- A whitespace-free id other than `id` never lets a saved video line be
mistaken for an `id = ` header. -/
theorem idTag_not_pre (id T : Str) (hws : AllNonWs id)
    (hid : id ≠ "id".toList) (hT : T = [] ∨ ∃ t, T = ' ' :: t) :
    idTag.isPrefixOf (id ++ T) = false := by
  have hsp : ∀ c ∈ id, (' ' == c) = false := by
    intro c hc
    have := hws c hc
    simp only [beq_eq_false_iff_ne, ne_eq]
    intro hsp
    rw [← hsp] at this
    simp [isWs] at this
  rcases id with _ | ⟨a, _ | ⟨b, _ | ⟨c, rest⟩⟩⟩
  · rcases hT with rfl | ⟨t, rfl⟩
    · rfl
    · simp [idTag, List.isPrefixOf]
  · rcases hT with rfl | ⟨t, rfl⟩
    · simp [idTag, List.isPrefixOf]
    · simp [idTag, List.isPrefixOf]
  · rcases hT with rfl | ⟨t, rfl⟩
    · simp [idTag, List.isPrefixOf]
    · by_cases ha : a = 'i'
      · by_cases hb : b = 'd'
        · exact absurd (by rw [ha, hb]; rfl) hid
        · simp [idTag, List.isPrefixOf]
          intro _ h2
          exact absurd h2.symm hb
      · simp [idTag, List.isPrefixOf]
        intro h1
        exact absurd h1.symm ha
  · have hc := hsp c (by simp)
    simp [idTag, List.isPrefixOf, hc]

/-! ### Behaviour of the line parser on each kind of saved line -/

theorem parseGo_blank (lookup : Str → Option VideoInfo) (rest : List Str) (st : ParseSt) :
    parseGo lookup ([] :: rest) st = parseGo lookup rest st := by
  simp [parseGo, jsTrim, trimL, trimR]

theorem parseGo_idLine (lookup : Str → Option VideoInfo) (rest : List Str) (st : ParseSt)
    (pid : Str) (h : IdWF pid) :
    parseGo lookup ((idTag ++ pid) :: rest) st = parseGo lookup rest { st with id := pid } := by
  obtain ⟨hne, hnl, htr⟩ := h
  have hjt : jsTrim (idTag ++ pid) = idTag ++ pid := by
    unfold jsTrim
    rw [show trimL (idTag ++ pid) = idTag ++ pid from
        trimL_cons_of_head 'i' (['d', ' ', '=', ' '] ++ pid) (by decide),
      trimR_append, htr, if_neg hne]
  have hu : urlTag.isPrefixOf (idTag ++ pid) = false := by
    show urlTag.isPrefixOf ('i' :: (['d', ' ', '=', ' '] ++ pid)) = false
    simp [urlTag, List.isPrefixOf]
  have hdrop : (idTag ++ pid).drop 5 = pid := List.drop_left idTag pid
  simp only [parseGo, hjt, hu, isPrefixOf_append_self, hdrop]
  rw [if_neg (by simp [idTag]), if_neg (by simp)]
  simp

theorem parseGo_urlLine (lookup : Str → Option VideoInfo) (rest : List Str) (st : ParseSt)
    (s : Str) (h : IdWF s) :
    parseGo lookup ((urlTag ++ s) :: rest) st =
      parseGo lookup rest { st with url := some s } := by
  obtain ⟨hne, hnl, htr⟩ := h
  have hjt : jsTrim (urlTag ++ s) = urlTag ++ s := by
    unfold jsTrim
    rw [show trimL (urlTag ++ s) = urlTag ++ s from
        trimL_cons_of_head 'u' (['r', 'l', ' ', '=', ' '] ++ s) (by decide),
      trimR_append, htr, if_neg hne]
  have hdrop : (urlTag ++ s).drop 6 = s := List.drop_left urlTag s
  simp only [parseGo, hjt, isPrefixOf_append_self, hdrop]
  rw [if_neg (by simp [urlTag])]
  simp

theorem parseGo_pieceLine (lookup : Str → Option VideoInfo) (rest : List Str) (st : ParseSt)
    (piece : Str) (hp : PieceWF piece) :
    parseGo lookup ((gtMark ++ piece) :: rest) st =
      parseGo lookup rest { st with labels :=
        (match mapGet st.labels (some st.videos.length) with
         | some old => mapSet st.labels (some st.videos.length) (old ++ '\n' :: piece)
         | none => mapSet st.labels (some st.videos.length) piece) } := by
  obtain ⟨hne, htl, htr⟩ := hp
  have hjt : jsTrim (gtMark ++ piece) = gtMark ++ piece := by
    unfold jsTrim
    rw [show trimL (gtMark ++ piece) = gtMark ++ piece from
        trimL_cons_of_head '>' (['>', '>', ' '] ++ piece) (by decide),
      trimR_append, htr, if_neg hne]
  have hu : urlTag.isPrefixOf (gtMark ++ piece) = false := by
    show urlTag.isPrefixOf ('>' :: (['>', '>', ' '] ++ piece)) = false
    simp [urlTag, List.isPrefixOf]
  have hi : idTag.isPrefixOf (gtMark ++ piece) = false := by
    show idTag.isPrefixOf ('>' :: (['>', '>', ' '] ++ piece)) = false
    simp [idTag, List.isPrefixOf]
  have hidx : idxWhere (fun c => !(c = '>')) (gtMark ++ piece) = some 3 := by
    show idxWhere (fun c => !(c = '>')) ('>' :: '>' :: '>' :: ' ' :: piece) = some 3
    simp [idxWhere]
  have hdrop : (gtMark ++ piece).drop 3 = ' ' :: piece := rfl
  have htrp : jsTrim (' ' :: piece) = piece := by
    unfold jsTrim
    have hsp : trimL (' ' :: piece) = trimL piece := by
      simp [trimL, List.dropWhile_cons, isWs]
    rw [hsp, htl, htr]
  simp only [parseGo, hjt, hu, hi, hidx, hdrop, htrp]
  rw [if_neg (by simp [gtMark]), if_neg (by simp), if_neg (by simp),
    if_pos (show (gtMark ++ piece).head? = some '>' from rfl)]

theorem parseGo_labelTail (lookup : Str → Option VideoInfo) (pieces : List Str) :
    ∀ (acc : Str) (st : ParseSt) (rest : List Str),
      (∀ piece ∈ pieces, PieceWF piece) →
      mapGet st.labels (some st.videos.length) = some acc →
      parseGo lookup ((pieces.map (fun l => gtMark ++ l)) ++ rest) st =
        parseGo lookup rest { st with labels :=
          (mapSet st.labels (some st.videos.length)
            (pieces.foldl (fun a q => a ++ '\n' :: q) acc)) } := by
  induction pieces with
  | nil =>
    intro acc st rest _ hacc
    simp only [List.map_nil, List.nil_append, List.foldl_nil]
    rw [mapSet_get_self _ _ _ hacc]
  | cons q qs ih =>
    intro acc st rest hwf hacc
    simp only [List.map_cons, List.cons_append]
    rw [parseGo_pieceLine lookup _ st q (hwf q (by simp)), hacc]
    have := ih (acc ++ '\n' :: q)
      { st with labels := mapSet st.labels (some st.videos.length) (acc ++ '\n' :: q) }
      rest (fun piece hp => hwf piece (by simp [hp]))
      (by simpa using mapGet_mapSet_self st.labels (some st.videos.length) (acc ++ '\n' :: q))
    simp only at this
    rw [this, mapSet_mapSet]
    rfl

theorem parseGo_labelBlock (lookup : Str → Option VideoInfo) (rest : List Str) (st : ParseSt)
    (lab : Str) (hw : LabelWF lab)
    (habs : mapGet st.labels (some st.videos.length) = none) :
    parseGo lookup (labelBlock lab ++ rest) st =
      parseGo lookup rest
        { st with labels := st.labels ++ [(some st.videos.length, lab)] } := by
  cases hs : jsSplit '\n' lab with
  | nil => exact absurd hs (jsSplit_ne_nil '\n' lab)
  | cons p ps =>
    have hwp : PieceWF p := hw p (by rw [hs]; simp)
    simp only [labelBlock, hs, List.map_cons, List.cons_append]
    rw [parseGo_blank, parseGo_pieceLine lookup _ st p hwp, habs,
      mapSet_absent _ _ _ habs]
    have := parseGo_labelTail lookup ps p
      { st with labels := st.labels ++ [(some st.videos.length, p)] } rest
      (fun piece hp => hw piece (by rw [hs]; simp [hp]))
      (by
        simp only []
        rw [mapGet_append_of_none _ _ _ habs]
        simp [mapGet])
    simp only at this
    rw [this, mapSet_append_last _ _ _ _ habs, foldl_join, ← hs, jsJoin_jsSplit]

theorem parseGo_refLine (lookup : Str → Option VideoInfo) (rest : List Str) (st : ParseSt)
    (id lb : Str) (v : VideoInfo)
    (hne : id ≠ []) (hws : AllNonWs id) (hgt : id.head? ≠ some '>')
    (hurl : id ≠ ['u', 'r', 'l']) (hid : id ≠ ['i', 'd'])
    (hlook : lookup id = some v) :
    parseGo lookup ((id ++ ' ' :: lb) :: rest) st =
      parseGo lookup rest { st with videos := st.videos ++ [v] } := by
  obtain ⟨c, cs, rfl⟩ : ∃ c cs, id = c :: cs := by
    cases id with
    | nil => exact absurd rfl hne
    | cons c cs => exact ⟨c, cs, rfl⟩
  have hcne : isWs c = false := hws c (by simp)
  have hT := trimR_cons_shape ' ' lb
  have hjt : jsTrim ((c :: cs) ++ ' ' :: lb) = (c :: cs) ++ trimR (' ' :: lb) := by
    unfold jsTrim
    rw [show trimL ((c :: cs) ++ ' ' :: lb) = (c :: cs) ++ ' ' :: lb from
        trimL_cons_of_head c (cs ++ ' ' :: lb) hcne,
      trimR_append]
    by_cases h2 : trimR (' ' :: lb) = []
    · rw [if_pos h2, h2, List.append_nil, trimR_of_allNonWs _ hws]
    · rw [if_neg h2]
  have hu : urlTag.isPrefixOf ((c :: cs) ++ trimR (' ' :: lb)) = false :=
    urlTag_not_pre (c :: cs) _ hws hurl hT
  have hi : idTag.isPrefixOf ((c :: cs) ++ trimR (' ' :: lb)) = false :=
    idTag_not_pre (c :: cs) _ hws hid hT
  have hgt2 : ¬(((c :: cs) ++ trimR (' ' :: lb)).head? = some '>') := by
    intro hh
    simp only [List.cons_append, List.head?_cons, Option.some.injEq] at hh
    rw [hh] at hgt
    simp at hgt
  rcases hT with hT | ⟨t, hT⟩
  · have hidx : idxWhere (fun ch => ch = ' ') ((c :: cs) ++ trimR (' ' :: lb)) = none := by
      rw [hT, List.append_nil]
      exact idxWhere_space_none _ hws
    simp only [parseGo, hjt, hu, hi, hidx, Option.getD_none]
    rw [if_neg (by simp), if_neg (by simp), if_neg (by simp), if_neg hgt2]
    rw [hT, List.append_nil, List.take_length, hlook]
  · have hidx : idxWhere (fun ch => ch = ' ') ((c :: cs) ++ trimR (' ' :: lb)) =
        some (c :: cs).length := by
      rw [hT]
      exact idxWhere_space_at _ _ hws
    simp only [parseGo, hjt, hu, hi, hidx, Option.getD_some]
    rw [if_neg (by simp), if_neg (by simp), if_neg (by simp), if_neg hgt2]
    rw [List.take_left, hlook]

theorem parseGo_videoLine (lookup : Str → Option VideoInfo) (rest : List Str) (st : ParseSt)
    (v : VideoInfo) (hw : VideoWF lookup v) :
    parseGo lookup (videoLine v :: rest) st =
      parseGo lookup rest { st with videos := st.videos ++ [v] } := by
  obtain ⟨hne, hws, hgt, hurl, hid, hnl, hlook⟩ := hw
  exact parseGo_refLine lookup rest st v.id v.label v hne hws hgt hurl hid hlook

theorem parseGo_body (lookup : Str → Option VideoInfo) (vs : List VideoInfo) :
    ∀ (m : LabelMap) (st : ParseSt) (rest : List Str),
      (∀ v ∈ vs, VideoWF lookup v) →
      (∀ j lab, st.videos.length ≤ j → j < st.videos.length + vs.length →
          mapGet m (some j) = some lab → LabelWF lab) →
      (∀ e ∈ st.labels, ∃ j, e.1 = some j ∧ j < st.videos.length) →
      parseGo lookup (saveVideoLines m st.videos.length vs ++ rest) st =
        parseGo lookup rest
          { st with videos := st.videos ++ vs,
                    labels := st.labels ++ collectFrom m st.videos.length vs.length } := by
  induction vs with
  | nil =>
    intro m st rest _ _ _
    simp [saveVideoLines, collectFrom]
  | cons v vs ih =>
    intro m st rest hv hl hk
    cases hm : mapGet m (some st.videos.length) with
    | none =>
      rw [show saveVideoLines m st.videos.length (v :: vs) =
          videoLine v :: saveVideoLines m (st.videos.length + 1) vs from by
        simp [saveVideoLines, hm]]
      rw [List.cons_append, parseGo_videoLine lookup _ st v (hv v (by simp))]
      have hbody := ih m { st with videos := st.videos ++ [v] } rest
        (fun w hw => hv w (by simp [hw]))
        (fun j lab hj1 hj2 hg => hl j lab (by simp at hj1; omega)
          (by simp at hj2; simp; omega) hg)
        (fun e he => by
          obtain ⟨j, hj, hjlt⟩ := hk e he
          exact ⟨j, hj, by simp; omega⟩)
      simp only [List.length_append, List.length_cons, List.length_nil] at hbody
      rw [hbody]
      simp [collectFrom, hm, List.append_assoc]
    | some lab =>
      rw [show saveVideoLines m st.videos.length (v :: vs) =
          labelBlock lab ++ (videoLine v :: saveVideoLines m (st.videos.length + 1) vs) from by
        simp [saveVideoLines, hm]]
      rw [List.append_assoc,
        parseGo_labelBlock lookup _ st lab
          (hl _ lab (Nat.le_refl _) (by simp) hm)
          (mapGet_none_of_keys _ _ fun e he => by
            obtain ⟨j, hj, hjlt⟩ := hk e he
            rw [hj]
            simp only [ne_eq, Option.some.injEq]
            omega),
        List.cons_append, parseGo_videoLine lookup _ _ v (hv v (by simp))]
      have hbody := ih m
        { st with videos := st.videos ++ [v],
                  labels := st.labels ++ [(some st.videos.length, lab)] } rest
        (fun w hw => hv w (by simp [hw]))
        (fun j lb hj1 hj2 hg => hl j lb (by simp at hj1; omega)
          (by simp at hj2; simp; omega) hg)
        (fun e he => by
          rcases List.mem_append.1 he with he1 | he2
          · obtain ⟨j, hj, hjlt⟩ := hk e he1
            exact ⟨j, hj, by simp; omega⟩
          · simp only [List.mem_singleton] at he2
            exact ⟨st.videos.length, by rw [he2], by simp⟩)
      simp only [List.length_append, List.length_cons, List.length_nil] at hbody
      rw [hbody]
      simp [collectFrom, hm, List.append_assoc]

/-- Master round-trip lemma: under the well-formedness conditions, parsing
the lines `save` writes for a playlist succeeds and yields the playlist back,
with its labels map replaced by the restriction to numeric keys below the
video count (in ascending key order) — exactly the annotations `save` wrote
out. -/
theorem parse_saveLines (lookup : Str → Option VideoInfo) (freshId : Str) (p : Playlist)
    (hid : IdWF p.id) (hurl : ∀ s, p.sourceId = some s → IdWF s)
    (hvids : ∀ v ∈ p.videos, VideoWF lookup v)
    (hlabs : ∀ j lab, j < p.videos.length → mapGet p.labels (some j) = some lab →
        LabelWF lab) :
    parsePlaylist lookup freshId p.label (saveLines p) =
      some { p with labels := collectFrom p.labels 0 p.videos.length } := by
  unfold parsePlaylist saveLines
  rw [parseGo_idLine lookup _ _ p.id hid]
  have hbody := fun (st : ParseSt) (hst : st.videos = []) (hlb : st.labels = []) =>
    parseGo_body lookup p.videos p.labels st [[]]
      hvids
      (fun j lab hj1 hj2 hg => hlabs j lab (by rw [hst] at hj2; simpa using hj2) hg)
      (fun e he => by rw [hlb] at he; cases he)
  cases hsrc : p.sourceId with
  | some s =>
    rw [List.cons_append, List.cons_append,
      parseGo_urlLine lookup _ _ s (hurl s hsrc), parseGo_blank]
    dsimp only
    rw [List.nil_append]
    have h := hbody { url := some s, id := p.id, videos := [], labels := [] } rfl rfl
    simp only [List.length_nil] at h
    rw [h, parseGo_blank]
    simp [parseGo]
  | none =>
    rw [List.cons_append, parseGo_blank]
    dsimp only
    rw [List.nil_append]
    have h := hbody { url := none, id := p.id, videos := [], labels := [] } rfl rfl
    simp only [List.length_nil] at h
    rw [h, parseGo_blank]
    simp [parseGo]

/-- C8 counterexample: round-trip persistence fails as an unconditional
statement.  A playlist whose single annotation contains an empty line
(`"L\n\nM"`) saves to a `>>> ` line that trims to an all-`>` line, which the
loader drops: the reloaded labels map holds `"L\nM"` — not observationally
equivalent to the pre-save state. -/
theorem claim_C8_counterexample :
    parsePlaylist rtLookup ['f'] ['P'] (saveLines c8badPlaylist) =
        some ⟨['x'], none, ['P'], [mkVid 'a'], [(some 0, ['L', '\n', 'M'])]⟩ ∧
      mapGet [(some 0, ['L', '\n', 'M'])] (some 0) ≠
        mapGet c8badPlaylist.labels (some 0) := by
  decide

/-- C8 (amended): save followed by load round-trips the videos sequence and
the labels mapping, provided every label is keyed at a numeric index below
the video count, every annotation line is nonempty and trim-stable, the
playlist id and source id are nonempty, newline-free and without trailing
whitespace, and every video has a nonempty whitespace-free id (not starting
with `>`, not the token `url` or `id`), a newline-free display label, and is
present in the video registry.  Label text is joined exactly once and not
duplicated: the reloaded map agrees with the original at every key. -/
theorem claim_C8 (lookup : Str → Option VideoInfo) (freshId : Str) (p : Playlist)
    (hid : IdWF p.id) (hurl : ∀ s, p.sourceId = some s → IdWF s)
    (hvids : ∀ v ∈ p.videos, VideoWF lookup v)
    (hlabs : ∀ j lab, j < p.videos.length → mapGet p.labels (some j) = some lab →
        LabelWF lab)
    (hkeys : ∀ e ∈ p.labels, ∃ j, e.1 = some j ∧ j < p.videos.length) :
    ∃ p2, parsePlaylist lookup freshId p.label (saveLines p) = some p2 ∧
      p2.videos = p.videos ∧ ∀ k, mapGet p2.labels k = mapGet p.labels k := by
  refine ⟨_, parse_saveLines lookup freshId p hid hurl hvids hlabs, rfl, ?_⟩
  intro k
  cases k with
  | none =>
    rw [show ({ p with labels := collectFrom p.labels 0 p.videos.length } : Playlist).labels
        = collectFrom p.labels 0 p.videos.length from rfl]
    rw [mapGet_collectFrom_none, mapGet_none_of_keys p.labels none fun e he => by
      obtain ⟨j, hj, _⟩ := hkeys e he
      rw [hj]
      simp]
  | some n =>
    rw [show ({ p with labels := collectFrom p.labels 0 p.videos.length } : Playlist).labels
        = collectFrom p.labels 0 p.videos.length from rfl]
    rw [mapGet_collectFrom]
    by_cases hn : n < p.videos.length
    · rw [if_pos ⟨Nat.zero_le n, by omega⟩]
    · rw [if_neg (by omega)]
      cases hg : mapGet p.labels (some n) with
      | none => rfl
      | some lab =>
        obtain ⟨e, he, hk⟩ := mapGet_eq_some_mem _ _ _ hg
        obtain ⟨j, hj, hjlt⟩ := hkeys e he
        rw [hj] at hk
        cases hk
        omega

/-- Witness for C8 at a concrete input: a playlist with one video and a
two-line annotation at index 0 round-trips. -/
theorem claim_C8_witness :
    IdWF c8goodPlaylist.id ∧
      (∃ p2, parsePlaylist rtLookup ['f'] c8goodPlaylist.label (saveLines c8goodPlaylist) =
          some p2 ∧ p2.videos = c8goodPlaylist.videos ∧
          ∀ k, mapGet p2.labels k = mapGet c8goodPlaylist.labels k) :=
  ⟨by decide,
    claim_C8 rtLookup ['f'] c8goodPlaylist (by decide)
      (by intro s hs; cases hs; decide)
      (by
        intro v hv
        simp only [c8goodPlaylist, List.mem_singleton] at hv
        subst hv
        decide)
      (by
        intro j lab hj hg
        have hj0 : j = 0 := by
          simp only [c8goodPlaylist, List.length_singleton] at hj
          omega
        subst hj0
        simp [c8goodPlaylist, mapGet] at hg
        subst hg
        decide)
      (by
        intro e he
        simp only [c8goodPlaylist, List.mem_singleton] at he
        subst he
        exact ⟨0, rfl, by decide⟩)⟩

/-- C10: an annotation keyed at an index at or past the videos length is
silently dropped by `save` — `save` writes an annotation block only for
indices that hold a video — so the reloaded playlist's labels map has no
entry at that key and the text is lost. -/
theorem claim_C10 (lookup : Str → Option VideoInfo) (freshId : Str) (p : Playlist)
    (n : Nat) (s : Str)
    (hid : IdWF p.id) (hurl : ∀ q, p.sourceId = some q → IdWF q)
    (hvids : ∀ v ∈ p.videos, VideoWF lookup v)
    (hlabs : ∀ j lab, j < p.videos.length → mapGet p.labels (some j) = some lab →
        LabelWF lab)
    (hn : p.videos.length ≤ n) (hs : mapGet p.labels (some n) = some s) :
    ∃ p2, parsePlaylist lookup freshId p.label (saveLines p) = some p2 ∧
      mapGet p2.labels (some n) = none := by
  refine ⟨_, parse_saveLines lookup freshId p hid hurl hvids hlabs, ?_⟩
  rw [show ({ p with labels := collectFrom p.labels 0 p.videos.length } : Playlist).labels
      = collectFrom p.labels 0 p.videos.length from rfl]
  rw [mapGet_collectFrom, if_neg (by omega)]

/-- Witness for C10 at a concrete input: a playlist with one video and a
trailing annotation at index 1 loses that annotation on save/load. -/
theorem claim_C10_witness :
    c10playlist.videos.length ≤ 1 ∧ mapGet c10playlist.labels (some 1) = some ['T'] ∧
      (∃ p2, parsePlaylist rtLookup ['f'] c10playlist.label (saveLines c10playlist) =
          some p2 ∧ mapGet p2.labels (some 1) = none) :=
  ⟨by decide, by decide,
    claim_C10 rtLookup ['f'] c10playlist 1 ['T'] (by decide)
      (by intro q hq; cases hq)
      (by
        intro v hv
        simp only [c10playlist, List.mem_singleton] at hv
        subst hv
        decide)
      (by
        intro j lab hj hg
        have hj0 : j = 0 := by
          simp only [c10playlist, List.length_singleton] at hj
          omega
        subst hj0
        simp [c10playlist, mapGet] at hg
        subst hg
        decide)
      (by decide) (by decide)⟩

/-- Witness for C1 at a concrete input. -/
theorem claim_C1_witness :
    ((fetchStep (c2state, [['q']]) c2item).1 = (fetchStep (c2state, []) c2item).1) ∧
      (c2item.publishedAt ≠ none ∧
        catalogGet c2state.catalog c2item.videoId = some (mkVid 'b') ∧
        mkVid 'b' ∉ c2state.playlist.videos ∧
        (fetchStep (c2state, [['q']]) c2item).1 = fetchPlace c2state (mkVid 'b')) :=
  ⟨(claim_C1 c2state [['q']] [] c2item (mkVid 'b')).1,
    by decide, by decide, by decide,
    (claim_C1 c2state [['q']] [] c2item (mkVid 'b')).2 (by decide) (by decide) (by decide)⟩

end YTA
